import Mathlib

/-!
Verification of the `dkregistry` image-reference parser (`src/reference.rs`)
and of the paginated tag enumeration contract (`tests/mock/tags.rs`).

Rust strings are modelled as lists of characters (`Str`); the byte length
used by `str::len` is recovered with `utf8Len`.  Fallible Rust functions
returning `Result<_, Error>` are modelled with `Except String _`, carrying
the literal error message produced by `bail!` / `ensure!` / `Error::from`.
-/

namespace DkRegistry

/-- Rust `&str`, modelled as its sequence of characters. -/
abbrev Str := List Char

/-- Byte length of a string (`str::len` counts UTF-8 bytes). -/
def utf8Len (s : Str) : Nat := (s.map Char.utf8Size).sum

/-- Decidable equality of `Except` values, used to evaluate the parser on
concrete inputs. -/
instance {ε α : Type} [DecidableEq ε] [DecidableEq α] : DecidableEq (Except ε α) := fun a b =>
  match a, b with
  | .error x, .error y =>
    if h : x = y then .isTrue (by rw [h]) else .isFalse (fun he => h (Except.error.inj he))
  | .ok x, .ok y =>
    if h : x = y then .isTrue (by rw [h]) else .isFalse (fun he => h (Except.ok.inj he))
  | .error _, .ok _ => .isFalse Except.noConfusion
  | .ok _, .error _ => .isFalse Except.noConfusion

/-- Models Rust `str::split(sep)`: splits at every occurrence of `sep`,
keeping empty pieces (`"a//b".split('/') = ["a", "", "b"]`). -/
def splitCh (sep : Char) : Str → List Str
  | [] => [[]]
  | x :: xs =>
    match splitCh sep xs with
    | [] => [[]]
    | h :: t => if x = sep then [] :: h :: t else (x :: h) :: t

/-- Models `str::rfind(c)` followed by `str::split_at` at the returned byte
index: `some (pre, suf)` where the input is `pre ++ suf`, `suf` begins with
the LAST occurrence of `c`, and `none` when `c` does not occur. -/
def splitAtLast (c : Char) : Str → Option (Str × Str)
  | [] => none
  | x :: xs =>
    match splitAtLast c xs with
    | some (a, b) => some (x :: a, b)
    | none => if x = c then some ([], x :: xs) else none

/-- Models `str::splitn(2, c)` when the separator occurs: `some (a, b)` with
the input equal to `a ++ c :: b` and `c ∉ a`; `none` when `c` is absent
(in which case `splitn` would yield a single piece). -/
def splitAtFirst (c : Char) : Str → Option (Str × Str)
  | [] => none
  | x :: xs =>
    if x = c then some ([], xs)
    else
      match splitAtFirst c xs with
      | some (a, b) => some (x :: a, b)
      | none => none

/-- Models `Vec::join("/")` on the component list (`reference.rs:206`). -/
def joinSlash : List Str → Str
  | [] => []
  | [a] => a
  | a :: b :: t => a ++ '/' :: joinSlash (b :: t)

/-- `static DEFAULT_REGISTRY` (`reference.rs:38`). -/
def default_registry : Str := "registry-1.docker.io".data

/-- `static DEFAULT_TAG` (`reference.rs:39`). -/
def default_tag : Str := "latest".data

/-- The `docker://` schema literal (`reference.rs:160`). -/
def dockerChars : Str := "docker://".data

/-- The `library` namespace inserted for single-component names
(`reference.rs:188`). -/
def libraryChars : Str := "library".data

/-- `enum Version` (`reference.rs:44`): a tag or an `(algorithm, hex)`
digest. -/
inductive Version where
  | Tag : Str → Version
  | Digest : Str → Str → Version
deriving DecidableEq

/-- `Version::default()` (`reference.rs:68`). -/
def Version.default : Version := .Tag "latest".data

/-- `impl FromStr for Version` (`reference.rs:49-66`).  The input is
expected to begin with `:` (tag) or `@` (digest); `trim_left_matches`
drops every leading occurrence of the separator; the digest branch splits
the trimmed text at its first `:` and fails when there is none. -/
def Version.fromStr (s : Str) : Except String Version :=
  match s with
  | [] => .error "too short"
  | c :: _ =>
    if c = ':' then .ok (.Tag (s.dropWhile (fun x => x = ':')))
    else if c = '@' then
      match splitAtFirst ':' (s.dropWhile (fun x => x = '@')) with
      | some (a, b) => .ok (.Digest a b)
      | none => .error "wrong digest format"
    else .error "unknown prefix"

/-- `impl Debug for Version` (`reference.rs:74-82`): `:tag` or
`@alg:hex`. -/
def Version.debugFmt : Version → Str
  | .Tag s => ':' :: s
  | .Digest t d => '@' :: (t ++ ':' :: d)

/-- `impl Display for Version` (`reference.rs:84-92`): `tag` or
`alg:hex`, with no leading separator. -/
def Version.displayFmt : Version → Str
  | .Tag s => s
  | .Digest t d => t ++ ':' :: d

/-- `struct Reference` (`reference.rs:96-102`). -/
structure Reference where
  has_schema : Bool
  raw_input : Str
  registry : Str
  repository : Str
  version : Version
deriving DecidableEq

/-- `Reference::new` (`reference.rs:105-115`). -/
def Reference.new (registry : Option Str) (repository : Str)
    (version : Option Version) : Reference :=
  { has_schema := false
    raw_input := []
    registry := registry.getD default_registry
    repository := repository
    version := version.getD (.Tag "latest".data) }

/-- Method `Reference::version(&self)` (`reference.rs:125-127`):
`self.version.to_string()`, i.e. the `Display` rendering. -/
def Reference.versionStr (r : Reference) : Str := r.version.displayFmt

/-- `impl Display for Reference` (`reference.rs:142-146`):
`{registry}/{repository}{version:?}`. -/
def Reference.displayFmt (r : Reference) : Str :=
  r.registry ++ '/' :: (r.repository ++ r.version.debugFmt)

/-- `Reference::to_url` (`reference.rs:134-139`):
`docker://{registry}/{repository}{version:?}`. -/
def Reference.to_url (r : Reference) : Str :=
  "docker://".data ++ (r.registry ++ '/' :: (r.repository ++ r.version.debugFmt))

/-- `rest.starts_with("docker://")` (`reference.rs:160`). -/
def hasSchemaOf (input : Str) : Bool := decide (dockerChars <+: input)

/-- `input.trim_left_matches("docker://")` (`reference.rs:162`): removes
every leading occurrence of the schema literal. -/
def trimSchemaAll : Str → Str
  | 'd' :: 'o' :: 'c' :: 'k' :: 'e' :: 'r' :: ':' :: '/' :: '/' :: rest => trimSchemaAll rest
  | s => s

/-- The effective input after schema stripping (`reference.rs:159-163`). -/
def schemaRest (input : Str) : Str :=
  if hasSchemaOf input then trimSchemaAll input else input

/-- Non-empty path components of the input
(`rest.split('/').filter(|s| !s.is_empty())`, `reference.rs:166-170`). -/
def rawComponents (input : Str) : List Str :=
  (splitCh '/' (schemaRest input)).filter (fun s => !s.isEmpty)

/-- Version extraction from the last path component
(`reference.rs:176-182`): split at the last `@` if any, else at the last
`:` if any, else keep the whole component with `Version::default()`. -/
def versionSplit (last : Str) : Except String (Str × Version) :=
  match splitAtLast '@' last with
  | some (a, b) =>
    match Version.fromStr b with
    | .ok v => .ok (a, v)
    | .error e => .error e
  | none =>
    match splitAtLast ':' last with
    | some (a, b) =>
      match Version.fromStr b with
      | .ok v => .ok (a, v)
      | .error e => .error e
    | none => .ok (last, Version.default)

/-- Character class `[a-z0-9]` of the path-component regex
(`reference.rs:197`). -/
def isPathAlnum (c : Char) : Bool :=
  (decide ('a' ≤ c) && decide (c ≤ 'z')) || (decide ('0' ≤ c) && decide (c ≤ '9'))

/-- Character class `[._-]` of the path-component regex. -/
def isPathSep (c : Char) : Bool := c = '.' || c = '_' || c = '-'

/-- Deterministic automaton for `^[a-z0-9]+(?:[._-][a-z0-9]+)*$`: the flag
records whether the current `[a-z0-9]+` block already holds a character
(acceptance is allowed exactly then). -/
def pathReAux : Bool → Str → Bool
  | b, [] => b
  | b, c :: rest =>
    if isPathAlnum c then pathReAux true rest
    else if isPathSep c then b && pathReAux false rest
    else false

/-- `path_re.is_match` for `^[a-z0-9]+(?:[._-][a-z0-9]+)*$`
(`reference.rs:197-198`). -/
def pathReMatch (s : Str) : Bool := pathReAux false s

/-- First phase of `parse_url` (`reference.rs:157-190`): split off the
version from the last component, reject an empty image name, and insert
the `library` namespace when no other component remains.  Returns the
normalized component list (which still carries the image name at its back)
together with the version. -/
def parseStage (input : Str) : Except String (List Str × Version) :=
  match (rawComponents input).getLast? with
  | none => .error "missing image name"
  | some last =>
    match versionSplit last with
    | .error e => .error e
    | .ok (image_name, version) =>
      if image_name.isEmpty then .error "empty image name"
      else
        let front := (rawComponents input).dropLast
        .ok ((if front.isEmpty then [libraryChars] else front) ++ [image_name], version)

/-- `fn parse_url` (`reference.rs:155-217`).  After `parseStage`, the
first component is classified by the path-component regex
(`reference.rs:194-203`); matching components stay at the front of the
repository and the registry defaults, non-matching ones become the
registry.  The reassembled repository must be non-empty and at most 127
bytes (`reference.rs:205-208`). -/
def parse_url (input : Str) : Except String Reference :=
  match parseStage input with
  | .error e => .error e
  | .ok (comps, version) =>
    match comps with
    | [] => .error "missing image name"
    | first :: tail =>
      if (joinSlash (if pathReMatch first then first :: tail else tail)).isEmpty then
        .error "empty repository name"
      else if 127 < utf8Len (joinSlash (if pathReMatch first then first :: tail else tail)) then
        .error "repository name too long"
      else
        .ok { has_schema := hasSchemaOf input
              raw_input := input
              registry := if pathReMatch first then default_registry else first
              repository := joinSlash (if pathReMatch first then first :: tail else tail)
              version := version }

/-- The repository string reassembled by `parse_url` just before the
length check (`reference.rs:194-206`), when the input reaches that
point. -/
def reassembledRepository (input : Str) : Option Str :=
  match parseStage input with
  | .error _ => none
  | .ok (comps, _) =>
    match comps with
    | [] => none
    | first :: tail =>
      some (joinSlash (if pathReMatch first then first :: tail else tail))

/-- Modelled from the spec: the `get_tags` implementation is not part of
the sources under scrutiny (only its mock tests are), so a page of
`/v2/{repo}/tags/list` is modelled abstractly as the decoded `tags` JSON
array together with the optional `rel="next"` Link-header target. -/
structure Page where
  tags : List String
  nextLink : Option String
deriving DecidableEq

/-- Modelled from the spec: the sequence of HTTP responses the server
gives to the successive page fetches of `get_tags` — either a status
error (the raw status code) or a decoded page.  `get_tags_run` returns
the tags emitted by the stream in page order then array order, paired
with `none` for normal termination or `some code` when a page fetch
failed.  A new page is fetched exactly when the previous response carried
a Link header (`nextLink`); a missing Link header ends the stream
normally. -/
def get_tags_run : List (Except Nat Page) → List String × Option Nat
  | [] => ([], none)
  | .error code :: _ => ([], some code)
  | .ok p :: rest =>
    match p.nextLink with
    | none => (p.tags, none)
    | some _ =>
      let r := get_tags_run rest
      (p.tags ++ r.1, r.2)

/-- Modelled from the spec: the pages actually fetched by `get_tags` —
the first page and, after any page carrying a Link header, the next
one. -/
def fetchedPages : List Page → List Page
  | [] => []
  | p :: rest =>
    p :: (match p.nextLink with
          | none => []
          | some _ => fetchedPages rest)

/-! ### Helper lemmas about the string primitives -/

theorem splitCh_ne_nil (c : Char) (s : Str) : splitCh c s ≠ [] := by
  cases s with
  | nil => simp [splitCh]
  | cons x xs =>
    rw [splitCh]
    cases h : splitCh c xs with
    | nil => simp
    | cons a t => by_cases hx : x = c <;> simp [hx]

theorem splitCh_of_not_mem {c : Char} {s : Str} (h : c ∉ s) : splitCh c s = [s] := by
  induction s with
  | nil => rfl
  | cons x xs ih =>
    have hx : ¬x = c := fun e => h (e ▸ List.mem_cons_self x xs)
    rw [splitCh, ih (fun hm => h (List.mem_cons_of_mem _ hm))]
    simp [hx]

theorem splitCh_cons_sep (c : Char) (xs : Str) :
    splitCh c (c :: xs) = [] :: splitCh c xs := by
  rw [splitCh]
  cases h : splitCh c xs with
  | nil => exact absurd h (splitCh_ne_nil c xs)
  | cons a t => simp

theorem splitCh_append_sep {c : Char} {a : Str} (b : Str) (h : c ∉ a) :
    splitCh c (a ++ c :: b) = a :: splitCh c b := by
  induction a with
  | nil => simpa using splitCh_cons_sep c b
  | cons x xs ih =>
    have hx : ¬x = c := fun e => h (e ▸ List.mem_cons_self x xs)
    rw [List.cons_append, splitCh, ih (fun hm => h (List.mem_cons_of_mem _ hm))]
    simp [hx]

theorem splitAtLast_eq_none_iff {c : Char} {s : Str} :
    splitAtLast c s = none ↔ c ∉ s := by
  induction s with
  | nil => simp [splitAtLast]
  | cons x xs ih =>
    rw [splitAtLast]
    cases hr : splitAtLast c xs with
    | some p =>
      obtain ⟨a1, b1⟩ := p
      have hmem : c ∈ xs := by
        by_contra hc
        rw [ih.mpr hc] at hr
        exact Option.noConfusion hr
      simp [List.mem_cons, hmem]
    | none =>
      have h2 : c ∉ xs := ih.mp hr
      by_cases hx : x = c
      · simp [hx]
      · simp only [List.mem_cons, hx, if_neg hx]
        constructor
        · intro _ hor
          rcases hor with he | hm
          · exact hx he.symm
          · exact h2 hm
        · intro _
          rfl

theorem splitAtLast_eq_none {c : Char} {s : Str} (h : c ∉ s) :
    splitAtLast c s = none := splitAtLast_eq_none_iff.2 h

theorem splitAtLast_append {c : Char} (pre : Str) {suf : Str} (h : c ∉ suf) :
    splitAtLast c (pre ++ c :: suf) = some (pre, c :: suf) := by
  induction pre with
  | nil => rw [List.nil_append, splitAtLast, splitAtLast_eq_none h]; simp
  | cons x xs ih => rw [List.cons_append, splitAtLast, ih]

theorem splitAtLast_spec {c : Char} {s a b : Str}
    (h : splitAtLast c s = some (a, b)) :
    ∃ t, s = a ++ c :: t ∧ b = c :: t ∧ c ∉ t := by
  induction s generalizing a b with
  | nil => simp [splitAtLast] at h
  | cons x xs ih =>
    rw [splitAtLast] at h
    cases hr : splitAtLast c xs with
    | some p =>
      obtain ⟨a1, b1⟩ := p
      rw [hr] at h
      rw [Option.some.injEq, Prod.mk.injEq] at h
      obtain ⟨ha, hb⟩ := h
      obtain ⟨t, hs1, hb1, hnt⟩ := ih hr
      refine ⟨t, ?_, ?_, hnt⟩
      · rw [← ha, hs1]
        rfl
      · rw [← hb, hb1]
    | none =>
      rw [hr] at h
      by_cases hx : x = c
      · rw [if_pos hx] at h
        rw [Option.some.injEq, Prod.mk.injEq] at h
        obtain ⟨ha, hb⟩ := h
        subst hx
        exact ⟨xs, by rw [← ha]; rfl, hb.symm, splitAtLast_eq_none_iff.1 hr⟩
      · rw [if_neg hx] at h
        exact Option.noConfusion h

theorem splitAtFirst_eq_none_iff {c : Char} {s : Str} :
    splitAtFirst c s = none ↔ c ∉ s := by
  induction s with
  | nil => simp [splitAtFirst]
  | cons x xs ih =>
    rw [splitAtFirst]
    by_cases hx : x = c
    · subst hx
      simp
    · rw [if_neg hx]
      cases hr : splitAtFirst c xs with
      | some p =>
        have hmem : c ∈ xs := by
          by_contra hc
          rw [ih.mpr hc] at hr
          exact Option.noConfusion hr
        simp [List.mem_cons, hmem]
      | none =>
        have h2 : c ∉ xs := ih.mp hr
        simp only [List.mem_cons, not_or]
        constructor
        · intro _
          exact ⟨fun e => hx e.symm, h2⟩
        · intro _
          trivial

theorem splitAtFirst_append {c : Char} {pre : Str} (suf : Str) (h : c ∉ pre) :
    splitAtFirst c (pre ++ c :: suf) = some (pre, suf) := by
  induction pre with
  | nil => simp [splitAtFirst]
  | cons x xs ih =>
    have hx : ¬x = c := fun e => h (e ▸ List.mem_cons_self x xs)
    rw [List.cons_append, splitAtFirst, if_neg hx,
      ih (fun hm => h (List.mem_cons_of_mem _ hm))]

theorem splitAtFirst_spec {c : Char} {s a b : Str}
    (h : splitAtFirst c s = some (a, b)) : s = a ++ c :: b ∧ c ∉ a := by
  induction s generalizing a b with
  | nil => simp [splitAtFirst] at h
  | cons x xs ih =>
    rw [splitAtFirst] at h
    by_cases hx : x = c
    · rw [if_pos hx] at h
      rw [Option.some.injEq, Prod.mk.injEq] at h
      obtain ⟨ha, hb⟩ := h
      subst hx
      exact ⟨by rw [← ha, ← hb]; rfl, by rw [← ha]; simp⟩
    · rw [if_neg hx] at h
      cases hr : splitAtFirst c xs with
      | some p =>
        obtain ⟨a1, b1⟩ := p
        rw [hr] at h
        rw [Option.some.injEq, Prod.mk.injEq] at h
        obtain ⟨ha, hb⟩ := h
        obtain ⟨hs1, hna⟩ := ih hr
        constructor
        · rw [← ha, hs1, ← hb]
          rfl
        · rw [← ha]
          intro hm
          rcases List.mem_cons.1 hm with he | hm2
          · exact hx he.symm
          · exact hna hm2
      | none =>
        rw [hr] at h
        exact Option.noConfusion h

theorem dropWhile_eq_of_not_mem {c : Char} {l : Str} (h : c ∉ l) :
    l.dropWhile (fun x => x = c) = l := by
  cases l with
  | nil => rfl
  | cons x xs =>
    have hx : ¬x = c := fun e => h (e ▸ List.mem_cons_self x xs)
    simp [List.dropWhile_cons, hx]

/-! ### Computation lemmas for `Version.fromStr` and `versionSplit` -/

theorem fromStr_tag {t : Str} (h : ':' ∉ t) :
    Version.fromStr (':' :: t) = .ok (.Tag t) := by
  simp [Version.fromStr, List.dropWhile_cons, dropWhile_eq_of_not_mem h]

theorem fromStr_digest {a d : Str} (ha : '@' ∉ a) (hd : '@' ∉ d) (hc : ':' ∉ a) :
    Version.fromStr ('@' :: (a ++ ':' :: d)) = .ok (.Digest a d) := by
  have h1 : '@' ∉ (a ++ ':' :: d) := by
    intro hm
    rcases List.mem_append.1 hm with hm | hm
    · exact ha hm
    · rcases List.mem_cons.1 hm with he | hm
      · exact absurd he (by decide)
      · exact hd hm
  simp [Version.fromStr, List.dropWhile_cons, dropWhile_eq_of_not_mem h1,
    splitAtFirst_append d hc]

theorem fromStr_digest_err {suf : Str} (h : '@' ∉ suf) (hc : ':' ∉ suf) :
    Version.fromStr ('@' :: suf) = .error "wrong digest format" := by
  simp [Version.fromStr, List.dropWhile_cons, dropWhile_eq_of_not_mem h,
    splitAtFirst_eq_none_iff.2 hc]

theorem versionSplit_tag {img t : Str} (h1 : '@' ∉ img) (h2 : '@' ∉ t)
    (h3 : ':' ∉ t) : versionSplit (img ++ ':' :: t) = .ok (img, .Tag t) := by
  have hat : '@' ∉ (img ++ ':' :: t) := by
    intro hm
    rcases List.mem_append.1 hm with hm | hm
    · exact h1 hm
    · rcases List.mem_cons.1 hm with he | hm
      · exact absurd he (by decide)
      · exact h2 hm
  rw [versionSplit, splitAtLast_eq_none hat, splitAtLast_append img h3]
  simp [fromStr_tag h3]

theorem versionSplit_digest {img a d : Str} (ha : '@' ∉ a) (hd : '@' ∉ d)
    (hc : ':' ∉ a) :
    versionSplit (img ++ '@' :: (a ++ ':' :: d)) = .ok (img, .Digest a d) := by
  have hsuf : '@' ∉ (a ++ ':' :: d) := by
    intro hm
    rcases List.mem_append.1 hm with hm | hm
    · exact ha hm
    · rcases List.mem_cons.1 hm with he | hm
      · exact absurd he (by decide)
      · exact hd hm
  rw [versionSplit, splitAtLast_append img hsuf]
  simp [fromStr_digest ha hd hc]

theorem versionSplit_default {last : Str} (h1 : '@' ∉ last) (h2 : ':' ∉ last) :
    versionSplit last = .ok (last, Version.default) := by
  rw [versionSplit, splitAtLast_eq_none h1, splitAtLast_eq_none h2]

theorem versionSplit_digest_err {img suf : Str} (h : '@' ∉ suf) (hc : ':' ∉ suf) :
    versionSplit (img ++ '@' :: suf) = .error "wrong digest format" := by
  rw [versionSplit, splitAtLast_append img h]
  simp [fromStr_digest_err h hc]

theorem versionSplit_ok_inv {last img : Str} {v : Version}
    (h : versionSplit last = .ok (img, v)) :
    (v = Version.default ∧ img = last ∧ '@' ∉ last ∧ ':' ∉ last) ∨
    (∃ t, v = .Tag t ∧ last = img ++ ':' :: t ∧ '@' ∉ last ∧ ':' ∉ t) ∨
    (∃ a d, v = .Digest a d ∧ last = img ++ '@' :: (a ++ ':' :: d) ∧
      '@' ∉ a ∧ '@' ∉ d ∧ ':' ∉ a) := by
  cases hA : splitAtLast '@' last with
  | some p =>
    obtain ⟨pre, b⟩ := p
    obtain ⟨t, hs, hb, hnt⟩ := splitAtLast_spec hA
    cases hF : splitAtFirst ':' t with
    | some q =>
      obtain ⟨a1, d1⟩ := q
      obtain ⟨ht, hna⟩ := splitAtFirst_spec hF
      have hda : '@' ∉ a1 := fun hm => hnt (ht ▸ List.mem_append.2 (Or.inl hm))
      have hdd : '@' ∉ d1 :=
        fun hm => hnt (ht ▸ List.mem_append.2 (Or.inr (List.mem_cons_of_mem _ hm)))
      have hval : versionSplit last = .ok (pre, .Digest a1 d1) := by
        rw [hs, ht]
        exact versionSplit_digest hda hdd hna
      rw [hval] at h
      simp only [Except.ok.injEq, Prod.mk.injEq] at h
      obtain ⟨hpre, hv⟩ := h
      exact Or.inr (Or.inr ⟨a1, d1, hv.symm, by rw [hs, ht, hpre], hda, hdd, hna⟩)
    | none =>
      have hval : versionSplit last = .error "wrong digest format" := by
        rw [hs]
        exact versionSplit_digest_err hnt (splitAtFirst_eq_none_iff.1 hF)
      rw [hval] at h
      exact Except.noConfusion h
  | none =>
    have hA2 : '@' ∉ last := splitAtLast_eq_none_iff.1 hA
    cases hC : splitAtLast ':' last with
    | some p =>
      obtain ⟨pre, b⟩ := p
      obtain ⟨t, hs, hb, hnt⟩ := splitAtLast_spec hC
      have hpt : '@' ∉ pre := fun hm => hA2 (hs ▸ List.mem_append.2 (Or.inl hm))
      have htt : '@' ∉ t :=
        fun hm => hA2 (hs ▸ List.mem_append.2 (Or.inr (List.mem_cons_of_mem _ hm)))
      have hval : versionSplit last = .ok (pre, .Tag t) := by
        rw [hs]
        exact versionSplit_tag hpt htt hnt
      rw [hval] at h
      simp only [Except.ok.injEq, Prod.mk.injEq] at h
      obtain ⟨hpre, hv⟩ := h
      exact Or.inr (Or.inl ⟨t, hv.symm, by rw [hs, hpre], hA2, hnt⟩)
    | none =>
      have hval : versionSplit last = .ok (last, Version.default) :=
        versionSplit_default hA2 (splitAtLast_eq_none_iff.1 hC)
      rw [hval] at h
      simp only [Except.ok.injEq, Prod.mk.injEq] at h
      obtain ⟨hl, hv⟩ := h
      exact Or.inl ⟨hv.symm, hl.symm, hA2, splitAtLast_eq_none_iff.1 hC⟩

/-! ### Inversion and computation lemmas for the parsing pipeline -/

theorem parse_url_version_error {input last : Str} {e : String}
    (hl : (rawComponents input).getLast? = some last)
    (he : versionSplit last = .error e) :
    parse_url input = .error e := by
  rw [parse_url, parseStage, hl]
  simp [he]

theorem parseStage_eq {input last img : Str} {v : Version}
    (hl : (rawComponents input).getLast? = some last)
    (hv : versionSplit last = .ok (img, v)) (himg : img ≠ []) :
    parseStage input =
      .ok ((if (rawComponents input).dropLast.isEmpty then [libraryChars]
            else (rawComponents input).dropLast) ++ [img], v) := by
  rw [parseStage, hl]
  simp [hv, List.isEmpty_iff, himg]

theorem parseStage_ok_inv {input : Str} {comps : List Str} {v : Version}
    (h : parseStage input = .ok (comps, v)) :
    ∃ last img, (rawComponents input).getLast? = some last ∧
      versionSplit last = .ok (img, v) ∧ img ≠ [] ∧
      comps = (if (rawComponents input).dropLast.isEmpty then [libraryChars]
               else (rawComponents input).dropLast) ++ [img] := by
  rw [parseStage] at h
  cases hl : (rawComponents input).getLast? with
  | none =>
    rw [hl] at h
    exact Except.noConfusion h
  | some last =>
    rw [hl] at h
    dsimp only at h
    cases hv : versionSplit last with
    | error e =>
      rw [hv] at h
      exact Except.noConfusion h
    | ok p =>
      obtain ⟨img, ver⟩ := p
      rw [hv] at h
      dsimp only at h
      by_cases himg : img.isEmpty
      · rw [if_pos himg] at h
        exact Except.noConfusion h
      · rw [if_neg himg] at h
        simp only [Except.ok.injEq, Prod.mk.injEq] at h
        obtain ⟨hc, hver⟩ := h
        refine ⟨last, img, rfl, ?_, ?_, hc.symm⟩
        · rw [hv, hver]
        · intro he
          exact himg (by simp [he])

theorem fromStr_error_inv {s : Str} {e : String}
    (h : Version.fromStr s = .error e) :
    e = "too short" ∨ e = "wrong digest format" ∨ e = "unknown prefix" := by
  cases s with
  | nil =>
    rw [Version.fromStr] at h
    simp only [Except.error.injEq] at h
    exact Or.inl h.symm
  | cons c cs =>
    rw [Version.fromStr] at h
    by_cases hc1 : c = ':'
    · rw [if_pos hc1] at h
      exact Except.noConfusion h
    · rw [if_neg hc1] at h
      by_cases hc2 : c = '@'
      · rw [if_pos hc2] at h
        cases hsf : splitAtFirst ':' ((c :: cs).dropWhile (fun x => x = '@')) with
        | some q =>
          obtain ⟨a, b⟩ := q
          rw [hsf] at h
          dsimp only at h
          exact Except.noConfusion h
        | none =>
          rw [hsf] at h
          dsimp only at h
          simp only [Except.error.injEq] at h
          exact Or.inr (Or.inl h.symm)
      · rw [if_neg hc2] at h
        simp only [Except.error.injEq] at h
        exact Or.inr (Or.inr h.symm)

theorem versionSplit_error_inv {last : Str} {e : String}
    (h : versionSplit last = .error e) :
    e = "too short" ∨ e = "wrong digest format" ∨ e = "unknown prefix" := by
  rw [versionSplit] at h
  cases hA : splitAtLast '@' last with
  | some p =>
    obtain ⟨a, b⟩ := p
    rw [hA] at h
    dsimp only at h
    cases hF : Version.fromStr b with
    | error e3 =>
      rw [hF] at h
      dsimp only at h
      simp only [Except.error.injEq] at h
      exact h ▸ fromStr_error_inv hF
    | ok v =>
      rw [hF] at h
      dsimp only at h
      exact Except.noConfusion h
  | none =>
    rw [hA] at h
    dsimp only at h
    cases hC : splitAtLast ':' last with
    | some p =>
      obtain ⟨a, b⟩ := p
      rw [hC] at h
      dsimp only at h
      cases hF : Version.fromStr b with
      | error e3 =>
        rw [hF] at h
        dsimp only at h
        simp only [Except.error.injEq] at h
        exact h ▸ fromStr_error_inv hF
      | ok v =>
        rw [hF] at h
        dsimp only at h
        exact Except.noConfusion h
    | none =>
      rw [hC] at h
      dsimp only at h
      exact Except.noConfusion h

theorem parseStage_error_inv {input : Str} {e : String}
    (h : parseStage input = .error e) :
    e = "missing image name" ∨ e = "too short" ∨ e = "wrong digest format" ∨
    e = "unknown prefix" ∨ e = "empty image name" := by
  rw [parseStage] at h
  cases hl : (rawComponents input).getLast? with
  | none =>
    rw [hl] at h
    dsimp only at h
    simp only [Except.error.injEq] at h
    exact Or.inl h.symm
  | some last =>
    rw [hl] at h
    dsimp only at h
    cases hv : versionSplit last with
    | error e2 =>
      rw [hv] at h
      dsimp only at h
      simp only [Except.error.injEq] at h
      rcases h ▸ versionSplit_error_inv hv with h1 | h1 | h1
      · exact Or.inr (Or.inl h1)
      · exact Or.inr (Or.inr (Or.inl h1))
      · exact Or.inr (Or.inr (Or.inr (Or.inl h1)))
    | ok p =>
      obtain ⟨img, ver⟩ := p
      rw [hv] at h
      dsimp only at h
      by_cases himg : img.isEmpty
      · rw [if_pos himg] at h
        simp only [Except.error.injEq] at h
        exact Or.inr (Or.inr (Or.inr (Or.inr h.symm)))
      · rw [if_neg himg] at h
        exact Except.noConfusion h

theorem parse_url_eq_of_stage {input : Str} {first : Str} {tail : List Str}
    {v : Version} (hs : parseStage input = .ok (first :: tail, v))
    (hne : joinSlash (if pathReMatch first then first :: tail else tail) ≠ [])
    (hlen : utf8Len (joinSlash (if pathReMatch first then first :: tail else tail)) ≤ 127) :
    parse_url input =
      .ok { has_schema := hasSchemaOf input
            raw_input := input
            registry := if pathReMatch first then default_registry else first
            repository := joinSlash (if pathReMatch first then first :: tail else tail)
            version := v } := by
  rw [parse_url, hs]
  dsimp only
  rw [if_neg (by simpa [List.isEmpty_iff] using hne), if_neg (Nat.not_lt.2 hlen)]

theorem parse_url_ok_inv {input : Str} {r : Reference}
    (h : parse_url input = .ok r) :
    ∃ first tail, parseStage input = .ok (first :: tail, r.version) ∧
      r.registry = (if pathReMatch first then default_registry else first) ∧
      r.repository = joinSlash (if pathReMatch first then first :: tail else tail) ∧
      r.repository ≠ [] ∧ utf8Len r.repository ≤ 127 ∧
      r.has_schema = hasSchemaOf input ∧ r.raw_input = input := by
  rw [parse_url] at h
  cases hs : parseStage input with
  | error e =>
    rw [hs] at h
    exact Except.noConfusion h
  | ok p =>
    obtain ⟨comps, v⟩ := p
    rw [hs] at h
    dsimp only at h
    cases comps with
    | nil =>
      exact Except.noConfusion h
    | cons first tail =>
      dsimp only at h
      by_cases h1 : (joinSlash (if pathReMatch first then first :: tail else tail)).isEmpty
      · rw [if_pos h1] at h
        exact Except.noConfusion h
      · rw [if_neg h1] at h
        by_cases h2 : 127 < utf8Len (joinSlash (if pathReMatch first then first :: tail else tail))
        · rw [if_pos h2] at h
          exact Except.noConfusion h
        · rw [if_neg h2] at h
          simp only [Except.ok.injEq] at h
          subst h
          refine ⟨first, tail, rfl, rfl, rfl, ?_, Nat.not_lt.1 h2, rfl, rfl⟩
          intro he
          exact h1 (by simpa [List.isEmpty_iff] using he)

theorem hasSchemaOf_shape {h ns : Str} (rest : Str) (hns : ns ≠ [])
    (hsh : '/' ∉ h) (hsns : '/' ∉ ns) :
    hasSchemaOf (h ++ '/' :: (ns ++ '/' :: rest)) = false := by
  rw [hasSchemaOf, decide_eq_false_iff_not]
  intro hpre
  obtain ⟨t, ht⟩ := hpre
  have hd : dockerChars ++ t = ("docker:").data ++ '/' :: ('/' :: t) := rfl
  rw [hd] at ht
  have hc := congrArg (splitCh '/') ht
  rw [splitCh_append_sep ('/' :: t) (show ('/' : Char) ∉ ("docker:").data by decide),
    splitCh_cons_sep, splitCh_append_sep (ns ++ '/' :: rest) hsh,
    splitCh_append_sep rest hsns] at hc
  injection hc with h1 hc2
  injection hc2 with h2 hc3
  exact hns h2.symm

theorem rawComponents_shape {h ns lastSeg : Str} (hh : h ≠ []) (hns : ns ≠ [])
    (hl : lastSeg ≠ []) (hsh : '/' ∉ h) (hsns : '/' ∉ ns) (hsl : '/' ∉ lastSeg) :
    rawComponents (h ++ '/' :: (ns ++ '/' :: lastSeg)) = [h, ns, lastSeg] := by
  rw [rawComponents, schemaRest, hasSchemaOf_shape lastSeg hns hsh hsns]
  simp only [Bool.false_eq_true, if_false]
  rw [splitCh_append_sep (ns ++ '/' :: lastSeg) hsh,
    splitCh_append_sep lastSeg hsns, splitCh_of_not_mem hsl]
  have e1 : h.isEmpty = false := by simp [List.isEmpty_iff, hh]
  have e2 : ns.isEmpty = false := by simp [List.isEmpty_iff, hns]
  have e3 : lastSeg.isEmpty = false := by simp [List.isEmpty_iff, hl]
  simp [List.filter, e1, e2, e3]

theorem parse_version_eq {input last img : Str} {v : Version} {r : Reference}
    (hl : (rawComponents input).getLast? = some last)
    (hv : versionSplit last = .ok (img, v))
    (hok : parse_url input = .ok r) : r.version = v := by
  obtain ⟨f, t, hstage, _, _, _, _, _, _⟩ := parse_url_ok_inv hok
  obtain ⟨last2, img2, hl2, hv2, _, _⟩ := parseStage_ok_inv hstage
  rw [hl] at hl2
  have hll : last = last2 := Option.some.inj hl2
  rw [← hll, hv] at hv2
  simp only [Except.ok.injEq, Prod.mk.injEq] at hv2
  exact hv2.2.symm

/-! ### Claim theorems -/

/-- Claim C1 (code bug): on the input `docker://quay.io/coreos/etcd@sha256:abc123`
the specification expects `registry = "quay.io"` and
`repository = "coreos/etcd"`, but the first segment `quay.io` matches the
path-component regex (its dot is in the `[._-]` class), so `parse_url`
keeps it in the repository and defaults the registry.  This theorem
evaluates the code at that input, exhibiting the divergence. -/
theorem claim_C1_actual_behavior_S2 :
    parse_url ("docker://quay.io/coreos/etcd@sha256:abc123").data =
      .ok { has_schema := true
            raw_input := ("docker://quay.io/coreos/etcd@sha256:abc123").data
            registry := default_registry
            repository := ("quay.io/coreos/etcd").data
            version := .Digest ("sha256").data ("abc123").data } ∧
    pathReMatch ("quay.io").data = true ∧
    default_registry ≠ ("quay.io").data := by decide

/-- Claim C2: when the normalized component list has at least two entries,
the first component becomes the registry exactly when it does not match the
path-component regex; a matching first component stays at the front of the
repository and the registry defaults to `registry-1.docker.io`. -/
theorem claim_C2 (input : Str) (first : Str) (tail : List Str) (ver : Version)
    (r : Reference) (hstage : parseStage input = .ok (first :: tail, ver))
    (_htail : tail ≠ []) (hok : parse_url input = .ok r) :
    (pathReMatch first = false →
      r.registry = first ∧ r.repository = joinSlash tail) ∧
    (pathReMatch first = true →
      r.registry = default_registry ∧
      r.repository = joinSlash (first :: tail)) := by
  obtain ⟨f2, t2, hs2, hreg, hrepo, _, _, _, _⟩ := parse_url_ok_inv hok
  rw [hstage] at hs2
  simp only [Except.ok.injEq, Prod.mk.injEq, List.cons.injEq] at hs2
  obtain ⟨⟨hf, ht⟩, hv⟩ := hs2
  subst hf
  subst ht
  constructor
  · intro hpm
    rw [hpm] at hreg hrepo
    simp only [Bool.false_eq_true, if_false] at hreg hrepo
    exact ⟨hreg, hrepo⟩
  · intro hpm
    rw [hpm] at hreg hrepo
    simp only [if_true] at hreg hrepo
    exact ⟨hreg, hrepo⟩

/-- Claim C4 counterexample: `Reference::new` performs no validation at
all — it happily builds a `Reference` with an empty repository — and the
parser does not check every repository component against the
path-component regex: `a/UPPER` parses although `UPPER` does not match. -/
theorem claim_C4_counterexample :
    (Reference.new none [] none).repository = [] ∧
    parse_url ("a/UPPER").data =
      .ok { has_schema := false
            raw_input := ("a/UPPER").data
            registry := default_registry
            repository := ("a/UPPER").data
            version := .Tag ("latest").data } ∧
    pathReMatch ("UPPER").data = false := by decide

/-- Claim C4 (amended): every `Reference` produced by the parser has a
non-empty repository of at most 127 UTF-8 bytes; the component-format and
`Reference::new` parts of the original claim do not hold (see the
counterexample). -/
theorem claim_C4_parser_repository_invariant (input : Str) (r : Reference)
    (h : parse_url input = .ok r) :
    r.repository ≠ [] ∧ utf8Len r.repository ≤ 127 := by
  obtain ⟨f, t, _, _, _, hne, hlen, _, _⟩ := parse_url_ok_inv h
  exact ⟨hne, hlen⟩

/-- Witness for the amended C4 theorem at a concrete input. -/
theorem claim_C4_parser_repository_invariant_witness :
    ({ has_schema := false
       raw_input := ("ns/app").data
       registry := default_registry
       repository := ("ns/app").data
       version := .Tag ("latest").data } : Reference).repository ≠ [] ∧
    utf8Len ({ has_schema := false
               raw_input := ("ns/app").data
               registry := default_registry
               repository := ("ns/app").data
               version := .Tag ("latest").data } : Reference).repository ≤ 127 :=
  claim_C4_parser_repository_invariant ("ns/app").data _ (by decide)

/-- Claim C5: an input with a single non-empty path segment is pushed into
the `library` namespace: the repository is `library/` followed by the
image name extracted from that segment, the registry defaults, and the
version is the one extracted from the segment. -/
theorem claim_C5 (input : Str) (seg img : Str) (v : Version) (r : Reference)
    (hraw : rawComponents input = [seg])
    (hver : versionSplit seg = .ok (img, v))
    (hok : parse_url input = .ok r) :
    r.registry = default_registry ∧
    r.repository = libraryChars ++ '/' :: img ∧ r.version = v := by
  obtain ⟨f, t, hstage, hreg, hrepo, _, _, _, _⟩ := parse_url_ok_inv hok
  obtain ⟨last2, img2, hl2, hv2, himg2, hcomps⟩ := parseStage_ok_inv hstage
  rw [hraw] at hl2 hcomps
  have hseg : seg = last2 := Option.some.inj hl2
  rw [← hseg, hver] at hv2
  simp only [Except.ok.injEq, Prod.mk.injEq] at hv2
  obtain ⟨himg, hvv⟩ := hv2
  have hcomps2 : f :: t = [libraryChars, img2] := by simpa using hcomps
  injection hcomps2 with hf ht
  subst hf
  subst ht
  have hlib : pathReMatch libraryChars = true := by decide
  rw [hlib] at hreg hrepo
  simp only [if_true] at hreg hrepo
  refine ⟨hreg, ?_, hvv.symm⟩
  rw [hrepo, himg]
  rfl

/-- Claim C5 witness: `docker://busybox` parses to the default registry,
repository `library/busybox` and tag `latest`. -/
theorem claim_C5_witness :
    ({ has_schema := true
       raw_input := ("docker://busybox").data
       registry := default_registry
       repository := ("library/busybox").data
       version := .Tag ("latest").data } : Reference).registry = default_registry ∧
    ({ has_schema := true
       raw_input := ("docker://busybox").data
       registry := default_registry
       repository := ("library/busybox").data
       version := .Tag ("latest").data } : Reference).repository =
      libraryChars ++ '/' :: ("busybox").data ∧
    ({ has_schema := true
       raw_input := ("docker://busybox").data
       registry := default_registry
       repository := ("library/busybox").data
       version := .Tag ("latest").data } : Reference).version = .Tag ("latest").data :=
  claim_C5 ("docker://busybox").data ("busybox").data ("busybox").data
    (.Tag ("latest").data) _ (by decide) (by decide) (by decide)

/-- Claim C10: the `version()` accessor renders the version without its
leading separator — a bare tag, or `alg:hex` — while `Display` and
`to_url` render it with the `:` or `@` separator attached. -/
theorem claim_C10 (t a d reg repo raw : Str) (hs : Bool) :
    ({ has_schema := hs, raw_input := raw, registry := reg,
       repository := repo, version := .Tag t } : Reference).versionStr = t ∧
    ({ has_schema := hs, raw_input := raw, registry := reg,
       repository := repo, version := .Digest a d } : Reference).versionStr =
      a ++ ':' :: d ∧
    ({ has_schema := hs, raw_input := raw, registry := reg,
       repository := repo, version := .Tag t } : Reference).displayFmt =
      reg ++ '/' :: (repo ++ ':' :: t) ∧
    ({ has_schema := hs, raw_input := raw, registry := reg,
       repository := repo, version := .Digest a d } : Reference).displayFmt =
      reg ++ '/' :: (repo ++ '@' :: (a ++ ':' :: d)) ∧
    ({ has_schema := hs, raw_input := raw, registry := reg,
       repository := repo, version := .Tag t } : Reference).to_url =
      ("docker://").data ++ (reg ++ '/' :: (repo ++ ':' :: t)) ∧
    ({ has_schema := hs, raw_input := raw, registry := reg,
       repository := repo, version := .Digest a d } : Reference).to_url =
      ("docker://").data ++ (reg ++ '/' :: (repo ++ '@' :: (a ++ ':' :: d))) :=
  ⟨rfl, rfl, rfl, rfl, rfl, rfl⟩

/-- Claim C2 witness: instantiation at the input `a/b`, whose first
component `a` matches the path-component regex. -/
theorem claim_C2_witness :
    (pathReMatch ("a").data = false →
      ({ has_schema := false
         raw_input := ("a/b").data
         registry := default_registry
         repository := ("a/b").data
         version := .Tag ("latest").data } : Reference).registry = ("a").data ∧
      ({ has_schema := false
         raw_input := ("a/b").data
         registry := default_registry
         repository := ("a/b").data
         version := .Tag ("latest").data } : Reference).repository =
        joinSlash [("b").data]) ∧
    (pathReMatch ("a").data = true →
      ({ has_schema := false
         raw_input := ("a/b").data
         registry := default_registry
         repository := ("a/b").data
         version := .Tag ("latest").data } : Reference).registry = default_registry ∧
      ({ has_schema := false
         raw_input := ("a/b").data
         registry := default_registry
         repository := ("a/b").data
         version := .Tag ("latest").data } : Reference).repository =
        joinSlash (("a").data :: [("b").data])) :=
  claim_C2 ("a/b").data ("a").data [("b").data] (.Tag ("latest").data) _
    (by decide) (by decide) (by decide)

/-- Claim C6: the version of a parsed reference is decided by the last
path component: a component containing `@` yields a digest split at the
first `:` after the last `@` (and parsing fails with `wrong digest
format` when that `:` is missing); otherwise a component containing `:`
yields the tag after the last `:`; otherwise the version is the default
tag `latest`. -/
theorem claim_C6 :
    (∀ (input pre suf : Str),
      (rawComponents input).getLast? = some (pre ++ '@' :: suf) → '@' ∉ suf →
      ((':' ∉ suf → parse_url input = .error "wrong digest format") ∧
       (∀ a d, suf = a ++ ':' :: d → ':' ∉ a →
         ∀ r, parse_url input = .ok r → r.version = .Digest a d))) ∧
    (∀ (input pre t2 : Str),
      (rawComponents input).getLast? = some (pre ++ ':' :: t2) →
      '@' ∉ pre → '@' ∉ t2 → ':' ∉ t2 →
      ∀ r, parse_url input = .ok r → r.version = .Tag t2) ∧
    (∀ (input last : Str),
      (rawComponents input).getLast? = some last → '@' ∉ last → ':' ∉ last →
      ∀ r, parse_url input = .ok r → r.version = .Tag ("latest").data) := by
  refine ⟨?_, ?_, ?_⟩
  · intro input pre suf hl hsuf
    constructor
    · intro hc
      exact parse_url_version_error hl (versionSplit_digest_err hsuf hc)
    · intro a d hsplit hca r hok
      subst hsplit
      have hda : '@' ∉ a := fun hm => hsuf (List.mem_append.2 (Or.inl hm))
      have hdd : '@' ∉ d :=
        fun hm => hsuf (List.mem_append.2 (Or.inr (List.mem_cons_of_mem _ hm)))
      exact parse_version_eq hl (versionSplit_digest hda hdd hca) hok
  · intro input pre t2 hl hpre ht2 hct2 r hok
    exact parse_version_eq hl (versionSplit_tag hpre ht2 hct2) hok
  · intro input last hl ha hc r hok
    exact parse_version_eq hl (versionSplit_default ha hc) hok

/-- Claim C6 witness: `name@sha256` has an `@` with no following `:`, so
parsing fails with `wrong digest format`. -/
theorem claim_C6_witness :
    parse_url ("name@sha256").data = .error "wrong digest format" :=
  (claim_C6.1 ("name@sha256").data ("name").data ("sha256").data
    (by decide) (by decide)).1 (by decide)

/-- Claim C7: `parse_url` fails with `repository name too long` exactly
when the reassembled repository exceeds 127 bytes; any reassembled
repository of at most 127 bytes is never rejected for length. -/
theorem claim_C7 (input : Str) :
    parse_url input = .error "repository name too long" ↔
      ∃ repo, reassembledRepository input = some repo ∧ 127 < utf8Len repo := by
  constructor
  · intro h
    rw [parse_url] at h
    cases hs : parseStage input with
    | error e =>
      rw [hs] at h
      simp only [Except.error.injEq] at h
      rcases parseStage_error_inv hs with h1 | h1 | h1 | h1 | h1 <;>
        rw [h1] at h <;> exact absurd h (by decide)
    | ok p =>
      obtain ⟨comps, v⟩ := p
      rw [hs] at h
      dsimp only at h
      cases comps with
      | nil =>
        simp only [Except.error.injEq] at h
        exact absurd h (by decide)
      | cons first tail =>
        dsimp only at h
        by_cases h1 : (joinSlash (if pathReMatch first then first :: tail else tail)).isEmpty
        · rw [if_pos h1] at h
          simp only [Except.error.injEq] at h
          exact absurd h (by decide)
        · rw [if_neg h1] at h
          by_cases h2 : 127 < utf8Len (joinSlash (if pathReMatch first then first :: tail else tail))
          · refine ⟨joinSlash (if pathReMatch first then first :: tail else tail), ?_, h2⟩
            rw [reassembledRepository, hs]
          · rw [if_neg h2] at h
            exact Except.noConfusion h
  · rintro ⟨repo, hR, hlen⟩
    rw [reassembledRepository] at hR
    cases hs : parseStage input with
    | error e =>
      rw [hs] at hR
      exact Option.noConfusion hR
    | ok p =>
      obtain ⟨comps, v⟩ := p
      rw [hs] at hR
      dsimp only at hR
      cases comps with
      | nil => exact Option.noConfusion hR
      | cons first tail =>
        dsimp only at hR
        simp only [Option.some.injEq] at hR
        subst hR
        rw [parse_url, hs]
        dsimp only
        have hne : ¬(joinSlash (if pathReMatch first then first :: tail else tail)).isEmpty = true := by
          intro hemp
          rw [List.isEmpty_iff] at hemp
          rw [hemp] at hlen
          simp [utf8Len] at hlen
        rw [if_neg hne, if_pos hlen]

set_option maxRecDepth 4096 in
/-- Claim C7 witness: a 128-byte repository is rejected for length. -/
theorem claim_C7_witness :
    parse_url (("HOST").data ++ '/' :: List.replicate 128 'a') =
      .error "repository name too long" :=
  (claim_C7 (("HOST").data ++ '/' :: List.replicate 128 'a')).mpr
    ⟨List.replicate 128 'a', by decide, by decide⟩

/-- Claim C9: the parser does not validate version contents — an empty
tag after a trailing `:`, an empty hex part after `@alg:`, and an empty
algorithm in `@:hex` all parse successfully. -/
theorem claim_C9 :
    (∀ (input pre : Str) (r : Reference),
      (rawComponents input).getLast? = some (pre ++ [':']) → '@' ∉ pre →
      parse_url input = .ok r → r.version = .Tag []) ∧
    (∀ (input pre a : Str) (r : Reference),
      (rawComponents input).getLast? = some (pre ++ '@' :: (a ++ [':'])) →
      '@' ∉ a → ':' ∉ a →
      parse_url input = .ok r → r.version = .Digest a []) ∧
    (∀ (input pre hex : Str) (r : Reference),
      (rawComponents input).getLast? = some (pre ++ '@' :: ':' :: hex) →
      '@' ∉ hex →
      parse_url input = .ok r → r.version = .Digest [] hex) := by
  refine ⟨?_, ?_, ?_⟩
  · intro input pre r hl hpre hok
    exact parse_version_eq hl
      (versionSplit_tag hpre (List.not_mem_nil _) (List.not_mem_nil _)) hok
  · intro input pre a r hl ha hc hok
    exact parse_version_eq hl (versionSplit_digest ha (List.not_mem_nil _) hc) hok
  · intro input pre hex r hl hd hok
    exact parse_version_eq hl
      (versionSplit_digest (List.not_mem_nil _) hd (List.not_mem_nil _)) hok

/-- Claim C9 witness: concrete inputs with empty tag, empty hex and empty
algorithm all parse successfully, and the first conclusion is obtained by
applying the claim theorem at `ns/name:`. -/
theorem claim_C9_witness :
    ({ has_schema := false
       raw_input := ("ns/name:").data
       registry := default_registry
       repository := ("ns/name").data
       version := .Tag [] } : Reference).version = .Tag [] ∧
    parse_url ("ns/name:").data =
      .ok { has_schema := false
            raw_input := ("ns/name:").data
            registry := default_registry
            repository := ("ns/name").data
            version := .Tag [] } ∧
    parse_url ("ns/name@sha256:").data =
      .ok { has_schema := false
            raw_input := ("ns/name@sha256:").data
            registry := default_registry
            repository := ("ns/name").data
            version := .Digest ("sha256").data [] } ∧
    parse_url ("ns/name@:abc").data =
      .ok { has_schema := false
            raw_input := ("ns/name@:abc").data
            registry := default_registry
            repository := ("ns/name").data
            version := .Digest [] ("abc").data } :=
  ⟨claim_C9.1 ("ns/name:").data ("name").data _ (by decide) (by decide) (by decide),
   by decide, by decide, by decide⟩

/-- Claim C8 (modelled from the spec): over any sequence of successful
pages, the tag stream emits exactly the concatenation of the `tags`
arrays of the fetched pages — in page order then array order — fetching a
next page exactly after a page carrying a Link header, and terminating
normally (no error) when the Link header is absent. -/
theorem claim_C8 (pages : List Page) :
    get_tags_run (pages.map Except.ok) =
      (((fetchedPages pages).map Page.tags).flatten, none) := by
  induction pages with
  | nil => rfl
  | cons p rest ih =>
    cases hnl : p.nextLink with
    | none => simp [get_tags_run, fetchedPages, hnl]
    | some u => simp [get_tags_run, fetchedPages, hnl, ih]

theorem parse_url_of_three {h2 ns2 last2 img2 : Str} {v2 : Version}
    (hh : h2 ≠ []) (hns : ns2 ≠ []) (hl : last2 ≠ [])
    (hsh : '/' ∉ h2) (hsns : '/' ∉ ns2) (hsl : '/' ∉ last2)
    (hver : versionSplit last2 = .ok (img2, v2)) (himg : img2 ≠ [])
    (hhost : pathReMatch h2 = false)
    (hlen : utf8Len (ns2 ++ '/' :: img2) ≤ 127) :
    parse_url (h2 ++ '/' :: (ns2 ++ '/' :: last2)) =
      .ok { has_schema := false
            raw_input := h2 ++ '/' :: (ns2 ++ '/' :: last2)
            registry := h2
            repository := ns2 ++ '/' :: img2
            version := v2 } := by
  have hraw := rawComponents_shape hh hns hl hsh hsns hsl
  have hgl : (rawComponents (h2 ++ '/' :: (ns2 ++ '/' :: last2))).getLast? = some last2 := by
    rw [hraw]
    rfl
  have hstage := parseStage_eq hgl hver himg
  rw [hraw] at hstage
  have hstage2 : parseStage (h2 ++ '/' :: (ns2 ++ '/' :: last2)) =
      .ok (h2 :: [ns2, img2], v2) := by
    simpa using hstage
  have hjoin : joinSlash (if pathReMatch h2 then h2 :: [ns2, img2] else [ns2, img2]) =
      ns2 ++ '/' :: img2 := by
    rw [hhost]
    rfl
  have hne : joinSlash (if pathReMatch h2 then h2 :: [ns2, img2] else [ns2, img2]) ≠ [] := by
    rw [hjoin]
    intro he
    exact absurd (List.append_eq_nil.1 he).2 (by simp)
  have hlen2 : utf8Len (joinSlash (if pathReMatch h2 then h2 :: [ns2, img2] else [ns2, img2])) ≤ 127 := by
    rw [hjoin]
    exact hlen
  have hres := parse_url_eq_of_stage hstage2 hne hlen2
  rw [hres, hasSchemaOf_shape last2 hns hsh hsns, hjoin]
  simp only [hhost, Bool.false_eq_true, if_false]

/-- Claim C3: parse–display round trip.  For an input of the shape
`<host>/<ns>/<name-with-optional-version>` whose host segment is a true
hostname in the sense of the grammar (it does not match the
path-component regex), a successful parse followed by `Display`
re-serialization re-parses to a `Reference` with the same registry,
repository and version. -/
theorem claim_C3 (h ns lastSeg : Str) (r : Reference)
    (hh : h ≠ []) (hns : ns ≠ []) (hl : lastSeg ≠ [])
    (hsh : '/' ∉ h) (hsns : '/' ∉ ns) (hsl : '/' ∉ lastSeg)
    (hhost : pathReMatch h = false)
    (hok : parse_url (h ++ '/' :: (ns ++ '/' :: lastSeg)) = .ok r) :
    ∃ r2, parse_url r.displayFmt = .ok r2 ∧
      r2.registry = r.registry ∧ r2.repository = r.repository ∧
      r2.version = r.version := by
  have hraw := rawComponents_shape hh hns hl hsh hsns hsl
  obtain ⟨f, t, hstage, hreg, hrepo, hne, hlen, _, _⟩ := parse_url_ok_inv hok
  obtain ⟨last2, img, hl2, hv2, himg, hcomps⟩ := parseStage_ok_inv hstage
  rw [hraw] at hl2 hcomps
  have hlast : lastSeg = last2 := Option.some.inj hl2
  subst hlast
  have hcomps2 : f :: t = [h, ns, img] := by simpa using hcomps
  injection hcomps2 with hf ht
  subst hf
  subst ht
  rw [hhost] at hreg hrepo
  simp only [Bool.false_eq_true, if_false] at hreg hrepo
  have hrepo2 : r.repository = ns ++ '/' :: img := by
    rw [hrepo]
    rfl
  have hlen2 : utf8Len (ns ++ '/' :: img) ≤ 127 := by
    rw [← hrepo2]
    exact hlen
  have key : versionSplit (img ++ Version.debugFmt r.version) = .ok (img, r.version) ∧
      ('/' : Char) ∉ Version.debugFmt r.version ∧ ('/' : Char) ∉ img := by
    rcases versionSplit_ok_inv hv2 with ⟨hvd, hieq, hna, hnc⟩ |
      ⟨tg, hvt, hseq, hna, hnt⟩ | ⟨a, d, hvd, hseq, hna, hnd, hnc⟩
    · subst hieq
      refine ⟨?_, ?_, hsl⟩
      · rw [hvd]
        exact versionSplit_tag hna (by decide) (by decide)
      · rw [hvd]
        decide
    · have hina : '@' ∉ img := fun hm => hna (hseq ▸ List.mem_append.2 (Or.inl hm))
      have htga : '@' ∉ tg :=
        fun hm => hna (hseq ▸ List.mem_append.2 (Or.inr (List.mem_cons_of_mem _ hm)))
      have hitg : '/' ∉ img := fun hm => hsl (hseq ▸ List.mem_append.2 (Or.inl hm))
      have htgs : '/' ∉ tg :=
        fun hm => hsl (hseq ▸ List.mem_append.2 (Or.inr (List.mem_cons_of_mem _ hm)))
      refine ⟨?_, ?_, hitg⟩
      · rw [hvt]
        exact versionSplit_tag hina htga hnt
      · rw [hvt]
        intro hm
        rcases List.mem_cons.1 hm with he | hm2
        · exact absurd he (by decide)
        · exact htgs hm2
    · have hia : '/' ∉ img := fun hm => hsl (hseq ▸ List.mem_append.2 (Or.inl hm))
      have haa : '/' ∉ a := fun hm => hsl (hseq ▸ List.mem_append.2
        (Or.inr (List.mem_cons_of_mem _ (List.mem_append.2 (Or.inl hm)))))
      have hdd : '/' ∉ d := fun hm => hsl (hseq ▸ List.mem_append.2
        (Or.inr (List.mem_cons_of_mem _ (List.mem_append.2
          (Or.inr (List.mem_cons_of_mem _ hm))))))
      refine ⟨?_, ?_, hia⟩
      · rw [hvd]
        exact versionSplit_digest hna hnd hnc
      · rw [hvd]
        intro hm
        rcases List.mem_cons.1 hm with he | hm2
        · exact absurd he (by decide)
        · rcases List.mem_append.1 hm2 with hm3 | hm3
          · exact haa hm3
          · rcases List.mem_cons.1 hm3 with he | hm4
            · exact absurd he (by decide)
            · exact hdd hm4
  obtain ⟨hv3, hdnosl, hinosl⟩ := key
  have hsl2 : ('/' : Char) ∉ img ++ Version.debugFmt r.version := by
    intro hm
    rcases List.mem_append.1 hm with hm | hm
    · exact hinosl hm
    · exact hdnosl hm
  have hne2 : img ++ Version.debugFmt r.version ≠ [] :=
    fun he => himg (List.append_eq_nil.1 he).1
  have hres := parse_url_of_three hh hns hne2 hsh hsns hsl2 hv3 himg hhost hlen2
  have hdisp : r.displayFmt =
      r.registry ++ '/' :: (ns ++ '/' :: (img ++ Version.debugFmt r.version)) := by
    rw [Reference.displayFmt, hrepo2]
    simp [List.append_assoc]
  refine ⟨{ has_schema := false
            raw_input := f ++ '/' :: (ns ++ '/' :: (img ++ Version.debugFmt r.version))
            registry := f
            repository := ns ++ '/' :: img
            version := r.version }, ?_, ?_, ?_, ?_⟩
  · rw [hdisp, hreg]
    exact hres
  · exact hreg.symm
  · exact hrepo2.symm
  · rfl

/-- Claim C3 witness: round trip at the concrete input `HOST/ns/name`. -/
theorem claim_C3_witness :
    ∃ r2, parse_url (Reference.displayFmt
        { has_schema := false
          raw_input := ("HOST/ns/name").data
          registry := ("HOST").data
          repository := ("ns/name").data
          version := .Tag ("latest").data }) = .ok r2 ∧
      r2.registry = ({ has_schema := false
                       raw_input := ("HOST/ns/name").data
                       registry := ("HOST").data
                       repository := ("ns/name").data
                       version := .Tag ("latest").data } : Reference).registry ∧
      r2.repository = ({ has_schema := false
                         raw_input := ("HOST/ns/name").data
                         registry := ("HOST").data
                         repository := ("ns/name").data
                         version := .Tag ("latest").data } : Reference).repository ∧
      r2.version = ({ has_schema := false
                      raw_input := ("HOST/ns/name").data
                      registry := ("HOST").data
                      repository := ("ns/name").data
                      version := .Tag ("latest").data } : Reference).version :=
  claim_C3 ("HOST").data ("ns").data ("name").data _ (by decide) (by decide)
    (by decide) (by decide) (by decide) (by decide) (by decide) (by decide)

end DkRegistry
